import Mathlib

/-!
Verification development for the cospdx schema compiler (gen/gen.py) and
document transcoder (conv/conv.py).  The Python source is shallowly embedded:
dictionaries become association lists, sets become lists used only through
membership, exceptions become Except, and the handful of Python string
primitives used by the source (replace, split, startswith, endswith, strip,
lower, int parsing) are re-implemented below as fuel-based structural
functions over the character list of a string, so that every definition is
executable and kernel-reducible.
-/

/-! ### Python string primitives -/

/-- Replace every non-overlapping occurrence of pat by rep, scanning left to
right; models Python str.replace for a non-empty pattern.  The fuel argument
bounds the recursion and is instantiated with the length of the subject. -/
def listReplaceGo : Nat → List Char → List Char → List Char → List Char
  | 0, _, _, s => s
  | fuel + 1, pat, rep, s =>
    if pat.isPrefixOf s ∧ pat ≠ [] then
      rep ++ listReplaceGo fuel pat rep (s.drop pat.length)
    else
      match s with
      | [] => []
      | c :: cs => c :: listReplaceGo fuel pat rep cs

def pyReplace (s pat rep : String) : String :=
  ⟨listReplaceGo (s.data.length + 1) pat.data rep.data s.data⟩

/-- Split on every non-overlapping occurrence of a non-empty separator,
left to right; models Python str.split with a separator argument. -/
def listSplitGo : Nat → List Char → List Char → List Char → List (List Char)
  | 0, _, acc, rest => [acc.reverse ++ rest]
  | fuel + 1, sep, acc, s =>
    if sep.isPrefixOf s ∧ sep ≠ [] then
      acc.reverse :: listSplitGo fuel sep [] (s.drop sep.length)
    else
      match s with
      | [] => [acc.reverse]
      | c :: cs => listSplitGo fuel sep (c :: acc) cs

def pySplit (s sep : String) : List String :=
  (listSplitGo (s.data.length + 1) sep.data [] s.data).map (fun l => ⟨l⟩)

def pyStartsWith (s pre : String) : Bool := pre.data.isPrefixOf s.data

def pyEndsWith (s suf : String) : Bool := suf.data.reverse.isPrefixOf s.data.reverse

def isPySpace (c : Char) : Bool := c == ' ' || c == '\t' || c == '\n' || c == '\r'

/-- Models Python str.strip with no argument (ASCII whitespace subset). -/
def pyStrip (s : String) : String :=
  ⟨((s.data.dropWhile isPySpace).reverse.dropWhile isPySpace).reverse⟩

def strDrop (s : String) (n : Nat) : String := ⟨s.data.drop n⟩

def strLen (s : String) : Nat := s.data.length

def pyToLower (s : String) : String := ⟨s.data.map Char.toLower⟩

def strIntercalate (sep : String) (xs : List String) : String :=
  ⟨(xs.map String.data).intersperse sep.data |>.flatten⟩

def digitVal (c : Char) : Nat := c.toNat - 48

/-- Models Python int() applied to an already stripped decimal literal. -/
def pyInt (s : String) : Option Int :=
  let core : List Char → Option Int := fun ds =>
    if ds ≠ [] ∧ ds.all Char.isDigit then
      some (ds.foldl (fun a c => a * 10 + digitVal c) 0 : Nat)
    else none
  match s.data with
  | '-' :: ds => (core ds).map (fun n => -n)
  | '+' :: ds => core ds
  | ds => core ds

/-! ### JSON schema nodes (gen.py data model) -/

/-- A JSON value: schema nodes are string-keyed mappings whose values are
nodes, sequences of nodes, or scalars. -/
inductive JVal where
  | str (s : String)
  | num (n : Int)
  | jbool (b : Bool)
  | null
  | arr (items : List JVal)
  | obj (fields : List (String × JVal))

/-- A schema node: the field list of a JSON object (Python dict). -/
abbrev JObj := List (String × JVal)

/-- Python dict lookup (d.get(k) / d[k]). -/
def alistGet {α : Type} (m : List (String × α)) (k : String) : Option α :=
  (m.find? (fun kv => kv.1 == k)).map Prod.snd

/-- Python dict assignment d[k] = v: overwrite in place, else append. -/
def alistSet {α : Type} (m : List (String × α)) (k : String) (v : α) :
    List (String × α) :=
  if (m.find? (fun kv => kv.1 == k)).isSome then
    m.map (fun kv => if kv.1 == k then (k, v) else kv)
  else m ++ [(k, v)]

def getJ (o : JObj) (k : String) : Option JVal := alistGet o k

def hasKey (o : JObj) (k : String) : Bool := (getJ o k).isSome

def keysJ (o : JObj) : List String := o.map Prod.fst

/-- Python set equality schema.keys() == set-literal. -/
def keySetEq (o : JObj) (ks : List String) : Bool :=
  (keysJ o).all (fun k => ks.contains k) && ks.all (fun k => (keysJ o).contains k)

/-- Python set-literal.issuperset(schema.keys()). -/
def keySup (ks : List String) (o : JObj) : Bool :=
  (keysJ o).all (fun k => ks.contains k)

/-- Python schema.get("type") == t for a string literal t: true exactly when
the key is present and holds the string t. -/
def typeIs (o : JObj) (t : String) : Bool :=
  match getJ o "type" with
  | some (.str s) => s == t
  | _ => false

/-! ### gen.py shape classifier: one recognizer per variant (is_one) -/

def StringType.is_one (schema : JObj) : Bool :=
  typeIs schema "string" && keySup ["type", "pattern", "allOf"] schema

def NumberType.is_one (schema : JObj) : Bool :=
  typeIs schema "number" && keySup ["type", "minimum", "maximum"] schema

def IntegerType.is_one (schema : JObj) : Bool :=
  typeIs schema "integer" && keySup ["type", "minimum", "maximum"] schema

def AnyOfType.is_one (schema : JObj) : Bool := keySetEq schema ["anyOf"]

def EnumType.is_one (schema : JObj) : Bool := keySetEq schema ["enum"]

def BooleanType.is_one (schema : JObj) : Bool := typeIs schema "boolean"

def RefType.is_one (schema : JObj) : Bool :=
  keySetEq schema ["$ref"]
    || (keySetEq schema ["$ref", "type", "unevaluatedProperties"]
        && typeIs schema "object")

def ConstType.is_one (schema : JObj) : Bool := keySetEq schema ["const"]

def ObjectType.is_one (schema : JObj) : Bool :=
  typeIs schema "object"
    && keySup ["type", "unevaluatedProperties", "anyOf", "required", "properties"] schema
    && ((if hasKey schema "properties" then 1 else 0)
        + (if hasKey schema "anyOf" then 1 else 0) ≤ 1)

def AllOfType.is_one (schema : JObj) : Bool := keySetEq schema ["allOf"]

def ArrayType.is_one (schema : JObj) : Bool :=
  typeIs schema "array"
    && keySup ["type", "items", "minItems", "description"] schema

def IfThenElseType.is_one (schema : JObj) : Bool := keySetEq schema ["if", "then", "else"]

/-- NotConstType.is_one evaluates ConstType.is_one on the value of the
key not; in Python that calls .keys() on the value, which raises
AttributeError if the value is not a dict.  The error is modelled as
Except.error. -/
def NotConstType.is_one (schema : JObj) : Except Unit Bool :=
  if keySetEq schema ["not"] then
    match getJ schema "not" with
    | some (.obj fields) => .ok (ConstType.is_one fields)
    | some _ => .error ()
    | none => .error ()
  else .ok false

def IfThenElseObjectType.is_one (schema : JObj) : Bool :=
  typeIs schema "object"
    && keySup ["type", "unevaluatedProperties", "required", "properties",
               "if", "then", "else"] schema
    && ["if", "then", "else"].all (fun k => (keysJ schema).contains k)

/-- The recognized shape variants, in the priority order of find_type. -/
inductive ShapeTag where
  | stringT | numberT | integerT | anyOfT | enumT | booleanT | refT | constT
  | objectT | allOfT | arrayT | ifThenElseT | notConstT | ifThenElseObjectT
deriving DecidableEq

/-- gen.py find_type: first matching recognizer wins, None if no match;
the NotConstType recognizer can raise (see NotConstType.is_one). -/
def find_type (schema : JObj) : Except Unit (Option ShapeTag) :=
  if StringType.is_one schema then .ok (some .stringT)
  else if NumberType.is_one schema then .ok (some .numberT)
  else if IntegerType.is_one schema then .ok (some .integerT)
  else if AnyOfType.is_one schema then .ok (some .anyOfT)
  else if EnumType.is_one schema then .ok (some .enumT)
  else if BooleanType.is_one schema then .ok (some .booleanT)
  else if RefType.is_one schema then .ok (some .refT)
  else if ConstType.is_one schema then .ok (some .constT)
  else if ObjectType.is_one schema then .ok (some .objectT)
  else if AllOfType.is_one schema then .ok (some .allOfT)
  else if ArrayType.is_one schema then .ok (some .arrayT)
  else if IfThenElseType.is_one schema then .ok (some .ifThenElseT)
  else
    match NotConstType.is_one schema with
    | .error e => .error e
    | .ok true => .ok (some .notConstT)
    | .ok false =>
      if IfThenElseObjectType.is_one schema then .ok (some .ifThenElseObjectT)
      else .ok none

/-! ### gen.py Number/Integer translators (cddl) -/

/-- NumberType.cddl: asserts no maximum; no minimum gives float; a
nonnegative minimum gives a bounded float; a negative minimum falls off the
end of the Python function, returning None (modelled as ok none).
Comparing a non-numeric minimum with 0 raises (modelled as error). -/
def NumberType.cddl (schema : JObj) : Except Unit (Option String) :=
  if hasKey schema "maximum" then .error ()
  else
    match getJ schema "minimum" with
    | none => .ok (some "float")
    | some (.num m) =>
      if 0 ≤ m then .ok (some ("float .ge " ++ toString m)) else .ok none
    | some _ => .error ()

/-- IntegerType.cddl: asserts minimum present and maximum absent; zero
minimum gives uint, positive gives bounded uint, negative gives int. -/
def IntegerType.cddl (schema : JObj) : Except Unit String :=
  if !hasKey schema "minimum" then .error ()
  else if hasKey schema "maximum" then .error ()
  else
    match getJ schema "minimum" with
    | some (.num m) =>
      if 0 ≤ m then
        (if m = 0 then .ok "uint" else .ok ("uint .ge " ++ toString m))
      else .ok "int"
    | _ => .error ()

/-! ### gen.py identifier interner (ContiguousInternedEntries) -/

/-- State of one interner instance; pfx embeds the Python attribute named
prefix.  entries is the Python dict mapping interned names to integers,
unescaped_entries the Python set of already produced escaped forms (used
only through membership). -/
structure ContiguousInternedEntries where
  pfx : String
  starting_offset : Nat
  latest_index : Nat
  entries : List (String × Nat)
  unescaped_entries : List String

def ContiguousInternedEntries.init (p : String) (offset : Nat) :
    ContiguousInternedEntries :=
  { pfx := p, starting_offset := offset, latest_index := offset,
    entries := [], unescaped_entries := [] }

/-- escape_name: replace the characters colon and slash by underscore, raise
ValueError when the escaped form is already an entry key but not a recorded
escaped form, and record the escaped form. -/
def ContiguousInternedEntries.escape_name (s : ContiguousInternedEntries)
    (name : String) : Except String (String × ContiguousInternedEntries) :=
  let escaped := pyReplace (pyReplace name ":" "_") "/" "_"
  if (s.entries.find? (fun kv => kv.1 == escaped)).isSome
      && !s.unescaped_entries.contains escaped then
    .error ("Name collision after escaping: " ++ name ++ " -> " ++ escaped)
  else
    .ok (escaped, { s with unescaped_entries := escaped :: s.unescaped_entries })

/-- get: escape the prefixed entry name, and assign the next integer when the
interned name is new. -/
def ContiguousInternedEntries.get (s0 : ContiguousInternedEntries)
    (entry : String) : Except String (String × ContiguousInternedEntries) :=
  match s0.escape_name (s0.pfx ++ "." ++ entry) with
  | .error msg => .error msg
  | .ok (interned_name, s) =>
    if (s.entries.find? (fun kv => kv.1 == interned_name)).isSome then
      .ok (interned_name, s)
    else
      .ok (interned_name,
        { s with latest_index := s.latest_index + 1,
                 entries := s.entries ++ [(interned_name, s.latest_index + 1)] })

/-- Interning a whole list of entries in order, keeping only the state. -/
def runGets (s : ContiguousInternedEntries) (xs : List String) :
    Except String ContiguousInternedEntries :=
  xs.foldlM (fun s x => (s.get x).map Prod.snd) s

/-! ### gen.py drop_weaker_constraints -/

/-- Accumulator of the scanning loop: defined is the Python set of labels of
strong fragments (used only through membership), weaker the Python dict from
label to the position of its latest weak fragment, pos the loop counter. -/
structure DWAcc where
  defined : List String
  weaker : List (String × Nat)
  pos : Nat

/-- One loop iteration of drop_weaker_constraints.  A part with no arrow is
skipped; a part splitting in exactly two is classified (optional label,
placeholder any value, or strong); a part splitting in three or more raises
the Python unpack ValueError, modelled as none. -/
def dwStep (acc : DWAcc) (part : String) : Option DWAcc :=
  match pySplit part " => " with
  | [_] => some { acc with pos := acc.pos + 1 }
  | [label, value] =>
    if pyStartsWith label "?" then
      some { acc with weaker := alistSet acc.weaker (strDrop label 1) acc.pos,
                      pos := acc.pos + 1 }
    else if value == "any" then
      some { acc with weaker := alistSet acc.weaker label acc.pos,
                      pos := acc.pos + 1 }
    else
      some { acc with defined := label :: acc.defined, pos := acc.pos + 1 }
  | _ => none

/-- drop_weaker_constraints on the split fragment list. -/
def drop_weaker_core (parts : List String) : Option (List String) := do
  let acc ← parts.foldlM dwStep ⟨[], [], 0⟩
  let dropped := (acc.weaker.filter (fun kv => acc.defined.contains kv.1)).map Prod.snd
  pure ((parts.enum.filter (fun ip => !dropped.contains ip.1)).map Prod.snd)

/-- gen.py drop_weaker_constraints: split on comma-space, scan, filter, join. -/
def drop_weaker_constraints (seq : String) : Option String :=
  (drop_weaker_core (pySplit seq ", ")).map (strIntercalate ", ")

/-- The label under which a fragment is recorded as weak: the label behind a
question mark, or the label of an any-valued fragment. -/
def weakLabel (part : String) : Option String :=
  match pySplit part " => " with
  | [label, value] =>
    if pyStartsWith label "?" then some (strDrop label 1)
    else if value == "any" then some label
    else none
  | _ => none

/-- The label under which a fragment is recorded as strong (defined). -/
def strongLabel (part : String) : Option String :=
  match pySplit part " => " with
  | [label, value] =>
    if pyStartsWith label "?" then none
    else if value == "any" then none
    else some label
  | _ => none

/-- The field name of a constraint fragment, weak or strong. -/
def fieldLabel (part : String) : Option String :=
  match weakLabel part with
  | some l => some l
  | none => strongLabel part

/-- A fragment is well formed when it does not raise the unpack error: its
split on the arrow has at most two pieces. -/
def wfPart (part : String) : Prop := (pySplit part " => ").length ≤ 2

/-- The removal condition stated by the specification: the fragment is weak
and some fragment of the list defines the same field as a strong version. -/
def droppedByClaim (parts : List String) (part : String) : Bool :=
  match weakLabel part with
  | some l => parts.any (fun q => strongLabel q == some l)
  | none => false

/-- Total variant of dwStep used in proofs; agrees with dwStep on well
formed fragments. -/
def dwStepT (acc : DWAcc) (part : String) : DWAcc :=
  match pySplit part " => " with
  | [_] => { acc with pos := acc.pos + 1 }
  | [label, value] =>
    if pyStartsWith label "?" then
      { acc with weaker := alistSet acc.weaker (strDrop label 1) acc.pos,
                 pos := acc.pos + 1 }
    else if value == "any" then
      { acc with weaker := alistSet acc.weaker label acc.pos,
                 pos := acc.pos + 1 }
    else
      { acc with defined := label :: acc.defined, pos := acc.pos + 1 }
  | _ => { acc with pos := acc.pos + 1 }

/-! ### gen.py profile grouper (Grouping) -/

def PROFILES_NAMES : List String :=
  ["Software", "Security", "Licensing", "SimpleLicensing", "ExpandedLicensing",
   "Dataset", "AI", "Build", "Lite", "Extension"]

/-- Grouping.__init__ first loop: profile_map maps each lowercased profile
name and its prop_-prefixed form to the profile name. -/
def profile_map : List (String × String) :=
  PROFILES_NAMES.foldl
    (fun m p => alistSet (alistSet m (pyToLower p) p) ("prop_" ++ pyToLower p) p) []

/-- Buckets of definitions per profile name, in Python a dict of lists. -/
abbrev Buckets := List (String × List (String × JVal))

/-- Grouping.__init__ first loop, bucket part: every known profile and Core
get an empty bucket. -/
def initBuckets : Buckets :=
  PROFILES_NAMES.foldl (fun bs p => alistSet bs p []) [] ++ [("Core", [])]

/-- Python self.profiles[p].append(d): append to the list stored under an
existing key (the key is always present in reachable states). -/
def bucketAppend (bs : Buckets) (p : String) (d : String × JVal) : Buckets :=
  bs.map (fun b => if b.1 == p then (b.1, b.2 ++ [d]) else b)

/-- Grouping.__init__ second loop body: try every profile_map key in order,
appending to each matching bucket and clearing the core flag; fall back to
the Core bucket. -/
def assignDef (bs : Buckets) (d : String × JVal) : Buckets :=
  let r := profile_map.foldl
    (fun (acc : Buckets × Bool) km =>
      if pyStartsWith d.1 km.1 then (bucketAppend acc.1 km.2 d, false) else acc)
    (bs, true)
  if r.2 then bucketAppend r.1 "Core" d else r.1

/-- Grouping.profiles after construction from a definition table. -/
def Grouping_profiles (defs : List (String × JVal)) : Buckets :=
  defs.foldl assignDef initBuckets

/-- The contents of one profile bucket. -/
def bucketOf (bs : Buckets) (p : String) : List (String × JVal) :=
  ((bs.find? (fun b => b.1 == p)).map Prod.snd).getD []

/-! ### conv.py schema loader (class Schema) -/

/-- The three interning tables of conv.py.  In the source these are class
attributes of Schema, shared by every instance, and Schema.__init__ mutates
them in place; the embedding therefore threads the shared state through each
construction explicitly. -/
structure SchemaState where
  labels : List (String × Int)
  enums : List (String × Int)
  consts : List (String × String)

def emptySchemaState : SchemaState := ⟨[], [], []⟩

/-- One line of Schema.__init__: strip, dispatch on the directive, split on
the equals sign (raising the unpack ValueError unless exactly two pieces),
strip both sides, and parse label and enum values as integers (const values
stay strings). -/
def schemaLine (s : SchemaState) (line0 : String) : Except String SchemaState :=
  let line := pyStrip line0
  if pyStartsWith line "label." then
    match pySplit (strDrop line (strLen "label.")) "=" with
    | [label, value] =>
      match pyInt (pyStrip value) with
      | some n => .ok { s with labels := alistSet s.labels (pyStrip label) n }
      | none => .error "ValueError: invalid literal for int"
    | _ => .error "ValueError: unpack"
  else if pyStartsWith line "enum." then
    match pySplit (strDrop line (strLen "enum.")) "=" with
    | [label, value] =>
      match pyInt (pyStrip value) with
      | some n => .ok { s with enums := alistSet s.enums (pyStrip label) n }
      | none => .error "ValueError: invalid literal for int"
    | _ => .error "ValueError: unpack"
  else if pyStartsWith line "const." then
    match pySplit (strDrop line (strLen "const.")) "=" with
    | [label, value] =>
      .ok { s with consts := alistSet s.consts (pyStrip label) (pyStrip value) }
    | _ => .error "ValueError: unpack"
  else .ok s

/-- Schema.__init__ over the lines of the configuration text, starting from
the shared class-level state, with the final disjointness assertion between
const and enum keys. -/
def schemaInit (s : SchemaState) (lines : List String) : Except String SchemaState := do
  let s ← lines.foldlM schemaLine s
  if s.consts.any (fun kv => s.enums.any (fun kv2 => kv2.1 == kv.1)) then
    .error "AssertionError: consts and enums intersect"
  else
    pure s

/-! ### conv.py value conversion (simple_value_convert) -/

/-- Values occurring in documents and in the transcoded output: JSON scalars
plus the byte strings and tagged integers produced by the conversion. -/
inductive DVal where
  | str (s : String)
  | int (n : Int)
  | dbool (b : Bool)
  | dnull
  | bytes (bs : List Nat)
  | tag1 (n : Int)
  | arr (items : List DVal)
  | omap (entries : List (DVal × DVal))

def hexDigitVal (c : Char) : Option Nat :=
  if c.isDigit then some (c.toNat - 48)
  else if 'a' ≤ c ∧ c ≤ 'f' then some (c.toNat - 97 + 10)
  else if 'A' ≤ c ∧ c ≤ 'F' then some (c.toNat - 65 + 10)
  else none

/-- Models Python bytes.fromhex: pairs of hexadecimal digits, ASCII spaces
allowed between pairs, anything else rejected. -/
def fromhexGo : Nat → List Char → Option (List Nat)
  | 0, _ => none
  | _ + 1, [] => some []
  | fuel + 1, ' ' :: r => fromhexGo fuel r
  | fuel + 1, c1 :: c2 :: r =>
    match hexDigitVal c1, hexDigitVal c2 with
    | some h, some l =>
      match fromhexGo fuel r with
      | some bs => some ((h * 16 + l) :: bs)
      | none => none
    | _, _ => none
  | _ + 1, _ => none

def fromhex (s : String) : Option (List Nat) := fromhexGo (s.data.length + 1) s.data

/-- The components of a parsed ISO-8601 timestamp: calendar fields, the
fractional-second numerator together with its number of digits, and the UTC
offset in minutes when one is present (none models a naive datetime). -/
structure PyDateTime where
  year : Nat
  month : Nat
  day : Nat
  hour : Nat
  minute : Nat
  second : Nat
  fracNum : Nat
  fracDigits : Nat
  tzMinutes : Option Int

def isLeapYear (y : Nat) : Bool := (y % 4 == 0 && y % 100 != 0) || y % 400 == 0

def daysInMonth (y m : Nat) : Nat :=
  if m == 2 then (if isLeapYear y then 29 else 28)
  else if m == 4 || m == 6 || m == 9 || m == 11 then 30
  else 31

/-- Days since 1970-01-01 of a proleptic Gregorian date with year at least
one (the civil-from-days algorithm used by every standard library). -/
def daysFromCivil (y m d : Nat) : Int :=
  let yy := if m ≤ 2 then y - 1 else y
  let era := yy / 400
  let yoe := yy - era * 400
  let mp := (m + 9) % 12
  let doy := (153 * mp + 2) / 5 + (d - 1)
  let doe := yoe * 365 + yoe / 4 - yoe / 100 + doy
  (era * 146097 + doe : Int) - 719468

def readNDigitsGo : Nat → Nat → List Char → Option (Nat × List Char)
  | 0, acc, s => some (acc, s)
  | _ + 1, _, [] => none
  | n + 1, acc, c :: s =>
    if c.isDigit then readNDigitsGo n (acc * 10 + digitVal c) s else none

def readNDigits (n : Nat) (s : List Char) : Option (Nat × List Char) :=
  readNDigitsGo n 0 s

def expectChar (c : Char) : List Char → Option (List Char)
  | [] => none
  | c2 :: r => if c2 == c then some r else none

/-- A run of fractional-second digits: numerator, digit count, rest. -/
def readFrac (s : List Char) : Nat × Nat × List Char :=
  let ds := s.takeWhile Char.isDigit
  (ds.foldl (fun a c => a * 10 + digitVal c) 0, ds.length, s.drop ds.length)

/-- A UTC offset suffix sign HH colon MM, empty input meaning naive. -/
def readTz (s : List Char) : Option (Option Int × List Char) :=
  match s with
  | [] => some (none, [])
  | '+' :: r =>
    (do
      let (hh, r) ← readNDigits 2 r
      let r ← expectChar ':' r
      let (mm, r) ← readNDigits 2 r
      if hh ≤ 23 ∧ mm ≤ 59 then some (some ((hh * 60 + mm : Nat) : Int), r) else none)
  | '-' :: r =>
    (do
      let (hh, r) ← readNDigits 2 r
      let r ← expectChar ':' r
      let (mm, r) ← readNDigits 2 r
      if hh ≤ 23 ∧ mm ≤ 59 then some (some (-((hh * 60 + mm : Nat) : Int)), r) else none)
  | _ => none

/-- Seconds with optional fraction: second count, numerator, digits, rest. -/
def readSecondsPart (s : List Char) : Option (Nat × Nat × Nat × List Char) :=
  match s with
  | ':' :: r =>
    (do
      let (sec, r) ← readNDigits 2 r
      match r with
      | '.' :: r2 =>
        let (fn, fd, r3) := readFrac r2
        if fd = 0 then none else some (sec, fn, fd, r3)
      | _ => some (sec, 0, 0, r))
  | _ => some (0, 0, 0, s)

/-- Models datetime.datetime.fromisoformat on the grammar the transcoder
relies on: YYYY-MM-DD, optionally followed by a T or space separator,
HH:MM, optional :SS, optional fractional seconds, and an optional signed
HH:MM offset; fields are range-checked.  Returns none exactly when Python
raises ValueError on this subset. -/
def fromisoformat (s : String) : Option PyDateTime := do
  let (y, r) ← readNDigits 4 s.data
  let r ← expectChar '-' r
  let (mo, r) ← readNDigits 2 r
  let r ← expectChar '-' r
  let (d, r) ← readNDigits 2 r
  if 1 ≤ y ∧ 1 ≤ mo ∧ mo ≤ 12 ∧ 1 ≤ d ∧ d ≤ daysInMonth y mo then
    match r with
    | [] => some ⟨y, mo, d, 0, 0, 0, 0, 0, none⟩
    | sep :: r =>
      if sep == 'T' || sep == ' ' then do
        let (h, r) ← readNDigits 2 r
        let r ← expectChar ':' r
        let (mi, r) ← readNDigits 2 r
        let (sec, fn, fd, r) ← readSecondsPart r
        let (tz, r) ← readTz r
        if r = [] ∧ h ≤ 23 ∧ mi ≤ 59 ∧ sec ≤ 59 then
          some ⟨y, mo, d, h, mi, sec, fn, fd, tz⟩
        else none
      else none
  else none

/-- The whole-second part of the Unix timestamp of a parsed datetime whose
UTC offset is offMinutes. -/
def wholeEpochSeconds (dt : PyDateTime) (offMinutes : Int) : Int :=
  daysFromCivil dt.year dt.month dt.day * 86400
    + (dt.hour : Int) * 3600 + (dt.minute : Int) * 60 + (dt.second : Int)
    - offMinutes * 60

/-- int(dt.timestamp()): truncation toward zero of whole seconds plus a
nonnegative fraction.  A naive datetime is interpreted at the ambient local
offset localOff, which models the environment-dependent local timezone
Python uses in that case. -/
def pyIntTimestamp (dt : PyDateTime) (localOff : Int) : Int :=
  let off := dt.tzMinutes.getD localOff
  let w := wholeEpochSeconds dt off
  if w < 0 ∧ dt.fracNum ≠ 0 then w + 1 else w

/-- conv.py simple_value_convert: digest fields become raw bytes from hex
text, timestamp fields become tag-1 integers of epoch seconds after
replacing Z by a zero offset, other strings are replaced by their const or
enum table entry when one exists, and everything else passes through. -/
def simple_value_convert (localOff : Int) (schema : SchemaState) (key : String)
    (value : DVal) : Except String DVal :=
  if key == "hashValue" then
    match value with
    | .str s =>
      match fromhex s with
      | some bs => .ok (.bytes bs)
      | none => .error "ValueError: non-hexadecimal number found in fromhex"
    | _ => .error "TypeError: fromhex expects a string"
  else if key == "created" || pyEndsWith key "Time" then
    match value with
    | .str s =>
      match fromisoformat (pyReplace s "Z" "+00:00") with
      | some dt => .ok (.tag1 (pyIntTimestamp dt localOff))
      | none => .error "ValueError: invalid isoformat string"
    | _ => .error "AttributeError: replace expects a string"
  else
    match value with
    | .str s =>
      match alistGet schema.consts s with
      | some c => .ok (.str c)
      | none =>
        match alistGet schema.enums s with
        | some e => .ok (.int e)
        | none => .ok value
    | _ => .ok value

/-! ### Predicates used by the statements -/

/-- Every entry key of the interner has been recorded as an escaped form;
this holds in every state reachable from init and is what makes the
collision branch of escape_name unreachable. -/
def internKeysInv (s : ContiguousInternedEntries) : Prop :=
  ∀ kv ∈ s.entries, s.unescaped_entries.contains kv.1 = true

/-- The escaping applied by escape_name. -/
def escapeStr (name : String) : String := pyReplace (pyReplace name ":" "_") "/" "_"

/-- Codes are the contiguous range starting one past the offset, in
insertion order, and the cursor sits at the end of the range. -/
def internContig (s : ContiguousInternedEntries) : Prop :=
  s.latest_index = s.starting_offset + s.entries.length
    ∧ s.entries.map Prod.snd = List.range' (s.starting_offset + 1) s.entries.length

/-- A bucket for this profile name exists. -/
def HasBucket (bs : Buckets) (k : String) : Bool :=
  (bs.find? (fun b => b.1 == k)).isSome

/-- The grouping rule actually implemented: a definition name belongs to
profile P when some profile_map key (a lowercased profile name or its
prop_-prefixed form) is a literal prefix of the name and maps to P, and to
Core when no key is a prefix. -/
def matchesProfile (name P : String) : Prop :=
  (∃ km ∈ profile_map, pyStartsWith name km.1 = true ∧ km.2 = P)
    ∨ ((∀ km ∈ profile_map, pyStartsWith name km.1 = false) ∧ P = "Core")

/-- At most one fragment of the list is recorded weak under any given
field name. -/
def uniqueWeak (parts : List String) : Prop :=
  parts.Pairwise (fun a b => (weakLabel a).isSome → weakLabel a ≠ weakLabel b)

/-- No two fragments of the list constrain the same field name. -/
def uniqueFields (parts : List String) : Prop :=
  parts.Pairwise (fun a b => (fieldLabel a).isSome → fieldLabel a ≠ fieldLabel b)

instance : DecidablePred wfPart := fun part => by
  unfold wfPart
  infer_instance

instance (parts : List String) : Decidable (uniqueWeak parts) := by
  unfold uniqueWeak
  infer_instance

instance (parts : List String) : Decidable (uniqueFields parts) := by
  unfold uniqueFields
  infer_instance

/-! ### Generic helper lemmas -/

theorem contains_iff_mem {α : Type} [BEq α] [LawfulBEq α] {l : List α} {x : α} :
    l.contains x = true ↔ x ∈ l := List.elem_iff

theorem alistSet_of_find?_none {α : Type} {m : List (String × α)} {k : String}
    (h : m.find? (fun kv => kv.1 == k) = none) (v : α) :
    alistSet m k v = m ++ [(k, v)] := by
  simp [alistSet, h]

theorem listSplitGo_ne_nil (fuel : Nat) (sep acc s : List Char) :
    listSplitGo fuel sep acc s ≠ [] := by
  induction fuel generalizing acc s with
  | zero => simp [listSplitGo]
  | succ n ih =>
    simp only [listSplitGo]
    split
    · simp
    · split
      · simp
      · exact ih _ _

theorem pySplit_ne_nil (s sep : String) : pySplit s sep ≠ [] := by
  simp only [pySplit, ne_eq, List.map_eq_nil_iff]
  exact listSplitGo_ne_nil _ _ _ _

/-! ### Constraint simplifier: proof machinery -/

theorem dwStep_eq_T {acc : DWAcc} {part : String} (h : wfPart part) :
    dwStep acc part = some (dwStepT acc part) := by
  unfold wfPart at h
  unfold dwStep dwStepT
  cases hs : pySplit part " => " with
  | nil => exact absurd hs (pySplit_ne_nil _ _)
  | cons a t =>
    cases t with
    | nil => rfl
    | cons b t2 =>
      cases t2 with
      | nil => dsimp only; split_ifs <;> rfl
      | cons c t3 => rw [hs] at h; simp at h

theorem foldlM_dwStep {parts : List String} (h : ∀ p ∈ parts, wfPart p) :
    ∀ acc : DWAcc, parts.foldlM dwStep acc = some (parts.foldl dwStepT acc) := by
  induction parts with
  | nil => intro acc; rfl
  | cons q rest ih =>
    intro acc
    rw [List.foldlM_cons, dwStep_eq_T (h q (by simp))]
    show rest.foldlM dwStep (dwStepT acc q) = _
    exact ih (fun p hp => h p (by simp [hp])) _

theorem dwStepT_pos (acc : DWAcc) (part : String) :
    (dwStepT acc part).pos = acc.pos + 1 := by
  unfold dwStepT
  cases hs : pySplit part " => " with
  | nil => rfl
  | cons a t =>
    cases t with
    | nil => rfl
    | cons b t2 =>
      cases t2 with
      | nil => dsimp only; split_ifs <;> rfl
      | cons c t3 => rfl

theorem dwStepT_defined (acc : DWAcc) (part : String) :
    (dwStepT acc part).defined =
      (match strongLabel part with
       | some l => l :: acc.defined
       | none => acc.defined) := by
  unfold dwStepT strongLabel
  cases hs : pySplit part " => " with
  | nil => rfl
  | cons a t =>
    cases t with
    | nil => rfl
    | cons b t2 =>
      cases t2 with
      | nil => dsimp only; split_ifs <;> rfl
      | cons c t3 => rfl

theorem dwStepT_weaker (acc : DWAcc) (part : String) :
    (dwStepT acc part).weaker =
      (match weakLabel part with
       | some l => alistSet acc.weaker l acc.pos
       | none => acc.weaker) := by
  unfold dwStepT weakLabel
  cases hs : pySplit part " => " with
  | nil => rfl
  | cons a t =>
    cases t with
    | nil => rfl
    | cons b t2 =>
      cases t2 with
      | nil => dsimp only; split_ifs <;> rfl
      | cons c t3 => rfl

theorem foldl_dwStepT_pos (parts : List String) (acc : DWAcc) :
    (parts.foldl dwStepT acc).pos = acc.pos + parts.length := by
  induction parts generalizing acc with
  | nil => simp
  | cons q rest ih =>
    rw [List.foldl_cons, ih, dwStepT_pos]
    simp
    omega

theorem foldl_dwStepT_defined (parts : List String) (acc : DWAcc) (l : String) :
    l ∈ (parts.foldl dwStepT acc).defined ↔
      l ∈ acc.defined ∨ ∃ q ∈ parts, strongLabel q = some l := by
  induction parts generalizing acc with
  | nil => simp
  | cons q rest ih =>
    rw [List.foldl_cons, ih]
    have hd := dwStepT_defined acc q
    cases hq : strongLabel q with
    | none =>
      rw [hq] at hd
      rw [hd]
      simp only [List.mem_cons]
      constructor
      · rintro (hm | ⟨r, hr, hsr⟩)
        · exact Or.inl hm
        · exact Or.inr ⟨r, Or.inr hr, hsr⟩
      · rintro (hm | ⟨r, hr | hr, hsr⟩)
        · exact Or.inl hm
        · subst hr; rw [hq] at hsr; cases hsr
        · exact Or.inr ⟨r, hr, hsr⟩
    | some l0 =>
      rw [hq] at hd
      rw [hd]
      simp only [List.mem_cons]
      constructor
      · rintro (hm | ⟨r, hr, hsr⟩)
        · rcases hm with hm | hm
          · exact Or.inr ⟨q, Or.inl rfl, by rw [hq, hm]⟩
          · exact Or.inl hm
        · exact Or.inr ⟨r, Or.inr hr, hsr⟩
      · rintro (hm | ⟨r, hr | hr, hsr⟩)
        · exact Or.inl (Or.inr hm)
        · subst hr; rw [hq] at hsr
          exact Or.inl (Or.inl (Option.some.inj hsr).symm)
        · exact Or.inr ⟨r, hr, hsr⟩

theorem foldl_dwStepT_weaker (parts : List String) :
    ∀ acc : DWAcc,
      (∀ l p, (l, p) ∈ acc.weaker → ∀ q ∈ parts, weakLabel q ≠ some l) →
      (∀ (i j : Nat) qi qj l, parts[i]? = some qi → parts[j]? = some qj →
        weakLabel qi = some l → weakLabel qj = some l → i = j) →
      ∀ l p, ((l, p) ∈ (parts.foldl dwStepT acc).weaker ↔
        ((l, p) ∈ acc.weaker ∨
          ∃ i q, parts[i]? = some q ∧ weakLabel q = some l ∧ p = acc.pos + i)) := by
  induction parts with
  | nil =>
    intro acc _ _ l p
    simp
  | cons q rest ih =>
    intro acc hdisj huniq l p
    rw [List.foldl_cons]
    have hw := dwStepT_weaker acc q
    have hpos : (dwStepT acc q).pos = acc.pos + 1 := dwStepT_pos acc q
    have huniq' : ∀ (i j : Nat) qi qj l, rest[i]? = some qi → rest[j]? = some qj →
        weakLabel qi = some l → weakLabel qj = some l → i = j := by
      intro i j qi qj l' hi hj hwi hwj
      have h0 := huniq (i + 1) (j + 1) qi qj l'
        (by simpa using hi) (by simpa using hj) hwi hwj
      omega
    cases hq : weakLabel q with
    | none =>
      rw [hq] at hw
      have hdisj' : ∀ l p, (l, p) ∈ (dwStepT acc q).weaker →
          ∀ r ∈ rest, weakLabel r ≠ some l := by
        rw [hw]
        intro l' p' hm r hr
        exact hdisj l' p' hm r (by simp [hr])
      rw [ih (dwStepT acc q) hdisj' huniq' l p, hw, hpos]
      constructor
      · rintro (hm | ⟨i, r, hr, hwr, hp⟩)
        · exact Or.inl hm
        · exact Or.inr ⟨i + 1, r, by simpa using hr, hwr, by omega⟩
      · rintro (hm | ⟨i, r, hr, hwr, hp⟩)
        · exact Or.inl hm
        · cases i with
          | zero =>
            rw [List.getElem?_cons_zero] at hr
            rw [← Option.some.inj hr, hq] at hwr
            cases hwr
          | succ i =>
            exact Or.inr ⟨i, r, by simpa using hr, hwr, by omega⟩
    | some l0 =>
      rw [hq] at hw
      dsimp only at hw
      have hnone : acc.weaker.find? (fun kv => kv.1 == l0) = none := by
        rw [List.find?_eq_none]
        rintro ⟨l', p'⟩ hm hbeq
        have hl : l' = l0 := by simpa using hbeq
        subst hl
        exact hdisj l' p' hm q (by simp) hq
      rw [alistSet_of_find?_none hnone] at hw
      have hdisj' : ∀ l p, (l, p) ∈ (dwStepT acc q).weaker →
          ∀ r ∈ rest, weakLabel r ≠ some l := by
        rw [hw]
        intro l' p' hm r hr hwr
        rcases List.mem_append.mp hm with hm | hm
        · exact hdisj l' p' hm r (by simp [hr]) hwr
        · simp only [List.mem_singleton, Prod.mk.injEq] at hm
          obtain ⟨h1, _⟩ := hm
          subst h1
          obtain ⟨j, hj⟩ := List.mem_iff_getElem?.mp hr
          have h0 := huniq 0 (j + 1) q r l'
            (by simp) (by simpa using hj) hq hwr
          omega
      rw [ih (dwStepT acc q) hdisj' huniq' l p, hw, hpos]
      constructor
      · rintro (hm | ⟨i, r, hr, hwr, hp⟩)
        · rcases List.mem_append.mp hm with hm | hm
          · exact Or.inl hm
          · simp only [List.mem_singleton, Prod.mk.injEq] at hm
            obtain ⟨h1, h2⟩ := hm
            subst h1; subst h2
            exact Or.inr ⟨0, q, by simp, hq, by omega⟩
        · exact Or.inr ⟨i + 1, r, by simpa using hr, hwr, by omega⟩
      · rintro (hm | ⟨i, r, hr, hwr, hp⟩)
        · exact Or.inl (List.mem_append.mpr (Or.inl hm))
        · cases i with
          | zero =>
            rw [List.getElem?_cons_zero] at hr
            rw [← Option.some.inj hr, hq] at hwr
            have hl : l0 = l := Option.some.inj hwr
            subst hl
            refine Or.inl (List.mem_append.mpr (Or.inr ?_))
            simp only [List.mem_singleton, Prod.mk.injEq]
            exact ⟨trivial, by omega⟩
          | succ i =>
            exact Or.inr ⟨i, r, by simpa using hr, hwr, by omega⟩

theorem uniqueWeak_index {parts : List String} (hu : uniqueWeak parts) :
    ∀ (i j : Nat) qi qj l, parts[i]? = some qi → parts[j]? = some qj →
      weakLabel qi = some l → weakLabel qj = some l → i = j := by
  intro i j qi qj l hi hj hwi hwj
  by_contra hne
  unfold uniqueWeak at hu
  rw [List.pairwise_iff_getElem] at hu
  obtain ⟨hi', hig⟩ := List.getElem?_eq_some.mp hi
  obtain ⟨hj', hjg⟩ := List.getElem?_eq_some.mp hj
  rcases Nat.lt_or_ge i j with h | h
  · have hr := hu i j hi' hj' h
    rw [hig, hjg] at hr
    exact hr (by simp [hwi]) (by rw [hwi, hwj])
  · have hlt : j < i := by omega
    have hr := hu j i hj' hi' hlt
    rw [hig, hjg] at hr
    exact hr (by simp [hwj]) (by rw [hwi, hwj])

theorem weakLabel_strong_none {part l : String} (h : weakLabel part = some l) :
    strongLabel part = none := by
  unfold weakLabel at h
  unfold strongLabel
  cases hs : pySplit part " => " with
  | nil => rfl
  | cons a t =>
    cases t with
    | nil => rfl
    | cons b t2 =>
      cases t2 with
      | nil =>
        rw [hs] at h
        dsimp only at h ⊢
        split_ifs at h ⊢ <;> simp_all
      | cons c t3 => rfl

theorem strongLabel_weak_none {part l : String} (h : strongLabel part = some l) :
    weakLabel part = none := by
  cases hw : weakLabel part with
  | none => rfl
  | some l2 => rw [weakLabel_strong_none hw] at h; cases h

theorem fieldLabel_of_weak {part l : String} (h : weakLabel part = some l) :
    fieldLabel part = some l := by
  unfold fieldLabel
  rw [h]

theorem fieldLabel_of_strong {part l : String} (h : strongLabel part = some l) :
    fieldLabel part = some l := by
  unfold fieldLabel
  rw [strongLabel_weak_none h, h]

theorem droppedByClaim_iff {parts : List String} {q : String} :
    droppedByClaim parts q = true ↔
      ∃ l, weakLabel q = some l ∧ ∃ r ∈ parts, strongLabel r = some l := by
  unfold droppedByClaim
  cases hq : weakLabel q with
  | none => simp
  | some l0 =>
    simp only [List.any_eq_true, beq_iff_eq]
    constructor
    · rintro ⟨r, hr, hsr⟩
      exact ⟨l0, rfl, r, hr, hsr⟩
    · rintro ⟨l, hl, r, hr, hsr⟩
      rw [← Option.some.inj hl] at hsr
      exact ⟨r, hr, hsr⟩

theorem mem_enum_getElem? {parts : List String} {i : Nat} {q : String}
    (h : (i, q) ∈ parts.enum) : parts[i]? = some q := by
  obtain ⟨m, hm⟩ := List.mem_iff_getElem?.mp h
  rw [show parts.enum = parts.enumFrom 0 from rfl, List.getElem?_enumFrom] at hm
  cases hg : parts[m]? with
  | none => rw [hg] at hm; cases hm
  | some a =>
    rw [hg] at hm
    simp only [Option.map_some', Option.some.injEq, Prod.mk.injEq] at hm
    obtain ⟨h1, h2⟩ := hm
    subst h2
    rw [← hg]
    congr 1
    omega

theorem drop_weaker_core_claim_filter (parts : List String)
    (hwf : ∀ p ∈ parts, wfPart p) (hu : uniqueWeak parts) :
    drop_weaker_core parts =
      some ((parts.enum.filter
        (fun ip => !droppedByClaim parts ip.2)).map Prod.snd) := by
  have huI := uniqueWeak_index hu
  unfold drop_weaker_core
  rw [foldlM_dwStep hwf]
  show some _ = some _
  congr 1
  apply congrArg (List.map Prod.snd)
  apply List.filter_congr
  rintro ⟨i, q⟩ hmem
  have hq : parts[i]? = some q := mem_enum_getElem? hmem
  have hpos0 : (⟨[], [], 0⟩ : DWAcc).pos = 0 := rfl
  congr 1
  rw [Bool.eq_iff_iff]
  constructor
  · intro hc
    rw [contains_iff_mem] at hc
    obtain ⟨kv, hkv, hsnd⟩ := List.mem_map.mp hc
    obtain ⟨hkvW, hkvD⟩ := List.mem_filter.mp hkv
    obtain ⟨l0, p0⟩ := kv
    have hp0 : p0 = i := by simpa using hsnd
    rw [hp0] at hkvW
    rw [foldl_dwStepT_weaker parts ⟨[], [], 0⟩ (by simp) huI l0 i] at hkvW
    rcases hkvW with hkvW | ⟨i2, q2, hq2, hw2, hp2⟩
    · cases hkvW
    · rw [hpos0, Nat.zero_add] at hp2
      subst hp2
      rw [hq] at hq2
      have hq2' := Option.some.inj hq2
      subst hq2'
      rw [contains_iff_mem] at hkvD
      rw [foldl_dwStepT_defined parts ⟨[], [], 0⟩ l0] at hkvD
      rcases hkvD with hkvD | ⟨r, hr, hsr⟩
      · cases hkvD
      · exact droppedByClaim_iff.mpr ⟨l0, hw2, r, hr, hsr⟩
  · intro hc
    obtain ⟨l0, hwq, r, hr, hsr⟩ := droppedByClaim_iff.mp hc
    rw [contains_iff_mem]
    apply List.mem_map.mpr
    refine ⟨(l0, i), ?_, rfl⟩
    apply List.mem_filter.mpr
    constructor
    · rw [foldl_dwStepT_weaker parts ⟨[], [], 0⟩ (by simp) huI l0 i]
      exact Or.inr ⟨i, q, hq, hwq, by rw [hpos0, Nat.zero_add]⟩
    · rw [contains_iff_mem, foldl_dwStepT_defined parts ⟨[], [], 0⟩ l0]
      exact Or.inr ⟨r, hr, hsr⟩

theorem drop_weaker_core_sublist {parts kept : List String}
    (h : drop_weaker_core parts = some kept) : kept.Sublist parts := by
  unfold drop_weaker_core at h
  cases hf : parts.foldlM dwStep ⟨[], [], 0⟩ with
  | none => rw [hf] at h; cases h
  | some accF =>
    rw [hf] at h
    have hk : kept = (parts.enum.filter
        (fun ip => !((accF.weaker.filter
          (fun kv => accF.defined.contains kv.1)).map Prod.snd).contains ip.1)).map
        Prod.snd := (Option.some.inj h).symm
    subst hk
    have he : parts.enum.map Prod.snd = parts := by
      rw [show parts.enum = parts.enumFrom 0 from rfl, List.enumFrom_map_snd]
    conv_rhs => rw [← he]
    exact List.Sublist.map Prod.snd (List.filter_sublist parts.enum)

theorem uniqueFields_index {parts : List String} (hu : uniqueFields parts) :
    ∀ (i j : Nat) qi qj l, parts[i]? = some qi → parts[j]? = some qj →
      fieldLabel qi = some l → fieldLabel qj = some l → i = j := by
  intro i j qi qj l hi hj hwi hwj
  by_contra hne
  unfold uniqueFields at hu
  rw [List.pairwise_iff_getElem] at hu
  obtain ⟨hi', hig⟩ := List.getElem?_eq_some.mp hi
  obtain ⟨hj', hjg⟩ := List.getElem?_eq_some.mp hj
  rcases Nat.lt_or_ge i j with h | h
  · have hr := hu i j hi' hj' h
    rw [hig, hjg] at hr
    exact hr (by simp [hwi]) (by rw [hwi, hwj])
  · have hlt : j < i := by omega
    have hr := hu j i hj' hi' hlt
    rw [hig, hjg] at hr
    exact hr (by simp [hwj]) (by rw [hwi, hwj])

theorem uniqueFields_uniqueWeak {parts : List String} (huf : uniqueFields parts) :
    uniqueWeak parts := by
  unfold uniqueFields at huf
  unfold uniqueWeak
  refine List.Pairwise.imp ?_ huf
  intro a b hab hsome heq
  cases hw : weakLabel a with
  | none => rw [hw] at hsome; cases hsome
  | some l =>
    have hwb : weakLabel b = some l := by rw [← heq, hw]
    have hfa := fieldLabel_of_weak hw
    have hfb := fieldLabel_of_weak hwb
    exact hab (by simp [hfa]) (by rw [hfa, hfb])

theorem drop_weaker_core_of_uniqueFields (parts : List String)
    (hwf : ∀ p ∈ parts, wfPart p) (huf : uniqueFields parts) :
    drop_weaker_core parts = some parts := by
  rw [drop_weaker_core_claim_filter parts hwf (uniqueFields_uniqueWeak huf)]
  congr 1
  have hfilter : ∀ ip ∈ parts.enum, (!droppedByClaim parts ip.2) = true := by
    rintro ⟨i, q⟩ hmem
    have hq : parts[i]? = some q := mem_enum_getElem? hmem
    simp only [Bool.not_eq_eq_eq_not, Bool.not_true]
    cases hd : droppedByClaim parts q with
    | false => rfl
    | true =>
      obtain ⟨l, hw, r, hr, hsr⟩ := droppedByClaim_iff.mp hd
      obtain ⟨ir, hir⟩ := List.mem_iff_getElem?.mp hr
      have hii : i = ir := uniqueFields_index huf i ir q r l hq hir
        (fieldLabel_of_weak hw) (fieldLabel_of_strong hsr)
      subst hii
      rw [hq] at hir
      rw [← Option.some.inj hir] at hsr
      rw [weakLabel_strong_none hw] at hsr
      cases hsr
  rw [List.filter_eq_self.mpr hfilter]
  rw [show parts.enum = parts.enumFrom 0 from rfl, List.enumFrom_map_snd]

/-- C4, counterexample: on the fragment list containing two optional
fragments for field a followed by a strong fragment for a, the code keeps
the first optional fragment (only the last weak position per field is
recorded in the weaker dict), while the claimed rule, which removes every
weak fragment whose field is defined as a stronger version elsewhere, keeps
only the strong fragment.  So removal does not happen exactly when a
stronger fragment for the same field exists elsewhere. -/
theorem C4_counterexample :
    drop_weaker_core ["?a => int", "?a => bool", "a => tstr"] =
        some ["?a => int", "a => tstr"]
      ∧ ((["?a => int", "?a => bool", "a => tstr"].enum.filter
          (fun ip => !droppedByClaim ["?a => int", "?a => bool", "a => tstr"] ip.2)).map
          Prod.snd) = ["a => tstr"] :=
  ⟨rfl, rfl⟩

/-- C4 (amended): for every ordered fragment list, (1) the example list of
an optional field-to-any fragment plus a required concrete fragment for the
same field reduces to only the required entry; (2) surviving fragments form
a sublist of the input, so their relative order is preserved (stable
filter); (3) a list with no duplicate field names is returned unchanged;
(4) when at most one weak fragment exists per field name, a fragment is
removed exactly when it is weak (optional or any-valued) and another
fragment defines the same field as a stronger version; when several weak
fragments share a field name, only the last-listed one is removed (see the
counterexample). -/
theorem C4_drop_weaker_constraints :
    (drop_weaker_core ["?field => any", "field => tstr"] = some ["field => tstr"])
    ∧ (∀ parts kept, drop_weaker_core parts = some kept → kept.Sublist parts)
    ∧ (∀ parts, (∀ p ∈ parts, wfPart p) → uniqueFields parts →
        drop_weaker_core parts = some parts)
    ∧ (∀ parts, (∀ p ∈ parts, wfPart p) → uniqueWeak parts →
        drop_weaker_core parts =
          some ((parts.enum.filter
            (fun ip => !droppedByClaim parts ip.2)).map Prod.snd)) :=
  ⟨rfl,
   fun _ _ h => drop_weaker_core_sublist h,
   fun parts hwf huf => drop_weaker_core_of_uniqueFields parts hwf huf,
   fun parts hwf hu => drop_weaker_core_claim_filter parts hwf hu⟩

/-- C4 witness: the amended theorem applied to a concrete fragment list,
with every hypothesis discharged by evaluation. -/
theorem C4_witness :
    (∀ p ∈ ["?name => any", "name => tstr", "x => int"], wfPart p)
    ∧ uniqueWeak ["?name => any", "name => tstr", "x => int"]
    ∧ drop_weaker_core ["?name => any", "name => tstr", "x => int"] =
        some ((["?name => any", "name => tstr", "x => int"].enum.filter
          (fun ip => !droppedByClaim ["?name => any", "name => tstr", "x => int"] ip.2)).map
          Prod.snd) :=
  ⟨by decide, by decide,
   C4_drop_weaker_constraints.2.2.2 ["?name => any", "name => tstr", "x => int"]
     (by decide) (by decide)⟩



/-! ### Interner: proof machinery -/

theorem escape_name_ok {s : ContiguousInternedEntries} (hinv : internKeysInv s)
    (name : String) :
    s.escape_name name = .ok (escapeStr name,
      { s with unescaped_entries := escapeStr name :: s.unescaped_entries }) := by
  have hneg : ¬(((s.entries.find?
        (fun kv => kv.1 == pyReplace (pyReplace name ":" "_") "/" "_")).isSome
      && !s.unescaped_entries.contains
        (pyReplace (pyReplace name ":" "_") "/" "_")) = true) := by
    rw [Bool.and_eq_true]
    rintro ⟨h1, h2⟩
    cases hfind : s.entries.find?
        (fun kv => kv.1 == pyReplace (pyReplace name ":" "_") "/" "_") with
    | none => rw [hfind] at h1; cases h1
    | some kv =>
      have hkm := List.mem_of_find?_eq_some hfind
      have hk1 : kv.1 = pyReplace (pyReplace name ":" "_") "/" "_" := by
        simpa using List.find?_some hfind
      have hc := hinv kv hkm
      rw [hk1] at hc
      rw [hc] at h2
      cases h2
  simp only [ContiguousInternedEntries.escape_name]
  rw [if_neg hneg]
  rfl

theorem get_ok {s : ContiguousInternedEntries} (hinv : internKeysInv s) (e : String) :
    ∃ s', s.get e = .ok (escapeStr (s.pfx ++ "." ++ e), s')
      ∧ internKeysInv s'
      ∧ s'.pfx = s.pfx
      ∧ s'.starting_offset = s.starting_offset
      ∧ ((∃ c, (escapeStr (s.pfx ++ "." ++ e), c) ∈ s.entries) →
          s'.entries = s.entries ∧ s'.latest_index = s.latest_index)
      ∧ ((∀ c, (escapeStr (s.pfx ++ "." ++ e), c) ∉ s.entries) →
          s'.entries = s.entries ++ [(escapeStr (s.pfx ++ "." ++ e), s.latest_index + 1)]
            ∧ s'.latest_index = s.latest_index + 1) := by
  cases hfind : s.entries.find? (fun kv => kv.1 == escapeStr (s.pfx ++ "." ++ e)) with
  | some kv =>
    refine ⟨{ s with unescaped_entries := escapeStr (s.pfx ++ "." ++ e) :: s.unescaped_entries }, ?_, ?_, rfl, rfl, fun _ => ⟨rfl, rfl⟩, ?_⟩
    · unfold ContiguousInternedEntries.get
      rw [escape_name_ok hinv]
      dsimp only
      rw [hfind]
      rfl
    · intro kv2 hm
      rw [contains_iff_mem]
      exact List.mem_cons_of_mem _ (contains_iff_mem.mp (hinv kv2 hm))
    · intro hnone
      exfalso
      have hkm := List.mem_of_find?_eq_some hfind
      have hk1 : kv.1 = escapeStr (s.pfx ++ "." ++ e) := by
        simpa using List.find?_some hfind
      exact hnone kv.2 (by rw [← hk1]; exact hkm)
  | none =>
    refine ⟨{ s with latest_index := s.latest_index + 1, entries := s.entries ++ [(escapeStr (s.pfx ++ "." ++ e), s.latest_index + 1)], unescaped_entries := escapeStr (s.pfx ++ "." ++ e) :: s.unescaped_entries }, ?_, ?_, rfl, rfl, ?_, fun _ => ⟨rfl, rfl⟩⟩
    · unfold ContiguousInternedEntries.get
      rw [escape_name_ok hinv]
      dsimp only
      rw [hfind]
      rfl
    · intro kv2 hm
      rcases List.mem_append.mp hm with hm2 | hm2
      · rw [contains_iff_mem]
        exact List.mem_cons_of_mem _ (contains_iff_mem.mp (hinv kv2 hm2))
      · rw [List.mem_singleton] at hm2
        subst hm2
        rw [contains_iff_mem]
        exact List.mem_cons_self _ _
    · rintro ⟨c, hc⟩
      exfalso
      rw [List.find?_eq_none] at hfind
      exact hfind _ hc (by simp)

theorem runGets_spec (xs : List String) :
    ∀ s : ContiguousInternedEntries, internKeysInv s → internContig s →
      ∃ s', runGets s xs = .ok s' ∧ internKeysInv s' ∧ internContig s'
        ∧ s'.starting_offset = s.starting_offset := by
  induction xs with
  | nil => intro s hinv hc; exact ⟨s, rfl, hinv, hc, rfl⟩
  | cons x rest ih =>
    intro s hinv hc
    obtain ⟨hlat, hrange⟩ := hc
    obtain ⟨s1, hget, hinv1, hpfx1, hoff1, hex, hnew⟩ := get_ok hinv x
    have hc1 : internContig s1 := by
      by_cases hmem : ∃ c, (escapeStr (s.pfx ++ "." ++ x), c) ∈ s.entries
      · obtain ⟨he, hl⟩ := hex hmem
        exact ⟨by rw [hl, he, hoff1, hlat], by rw [he, hoff1, hrange]⟩
      · push_neg at hmem
        obtain ⟨he, hl⟩ := hnew hmem
        constructor
        · rw [hl, he, hoff1, hlat]
          simp only [List.length_append, List.length_cons, List.length_nil]
          omega
        · rw [he, hoff1, List.map_append, hrange]
          simp only [List.map_cons, List.map_nil, List.length_append,
            List.length_cons, List.length_nil]
          rw [List.range'_concat]
          congr 2
          omega
    obtain ⟨s', hrun, hinv', hc', hoff'⟩ := ih s1 hinv1 hc1
    refine ⟨s', ?_, hinv', hc', by rw [hoff', hoff1]⟩
    unfold runGets
    rw [List.foldlM_cons]
    show (s.get x).map Prod.snd >>= _ = .ok s'
    rw [hget]
    exact hrun

/-- C1: the collision guard of escape_name is dead code.  Every escaped form
is added to unescaped_entries, and every entry key was produced by
escape_name, so the raising condition (escaped is an entry key and not a
recorded escaped form) is never satisfied.  Interning a:b and then a/b in
the same namespace therefore raises nothing: both calls succeed, return the
identical escaped identifier label.a_b, and share the single table entry
with code 1, contradicting both the collision error and injectivity the
claim states.  The comment in escape_name says the tracking exists to
detect any collisions, so the claim describes the intent and the code is
the slip. -/
theorem C1_collision_check_dead :
    (do
      let (n1, s1) ← (ContiguousInternedEntries.init "label" 0).get "a:b"
      let (n2, s2) ← s1.get "a/b"
      pure (n1, n2, s1.entries, s2.entries)) =
    Except.ok ("label.a_b", "label.a_b", [("label.a_b", 1)], [("label.a_b", 1)]) := rfl

/-- C2: the labels, enums and consts tables of conv.py Schema are class
attributes, mutated in place by every __init__, so entries persist across
Schema constructions in one process.  Constructing a Schema from a text
declaring only label.b still shows label.a from a previously constructed
Schema: the table is not rebuilt from scratch, contradicting the claim.
Since __init__ repopulates the tables from the given text and the spec
describes a per-run rebuild, the sharing is a slip in the code. -/
theorem C2_schema_tables_persist :
    (do
      let s1 ← schemaInit emptySchemaState ["label.a = 1"]
      let s2 ← schemaInit s1 ["label.b = 2"]
      pure s2.labels) = Except.ok [("a", 1), ("b", 2)] := rfl

/-- C8, counterexample: the very first string interned in the label
namespace (offset 0) receives code 1, not 0, because get increments
latest_index before assigning. -/
theorem C8_counterexample :
    (((ContiguousInternedEntries.init "label" 0).get "a").map
        (fun r => alistGet r.2.entries "label.a") = .ok (some 1))
    ∧ (some 1 : Option Nat) ≠ some 0 :=
  ⟨rfl, by decide⟩

/-- C8 (amended): interned codes are assigned per namespace contiguously in
first-seen order starting one past the configured offset, so the first
label receives 1 and the first const 1001; after any sequence of gets from
a fresh interner the codes are exactly the range from offset plus one, in
insertion order; and re-interning an already interned string returns the
same interned name and leaves the entry table, hence the assigned integer,
unchanged. -/
theorem C8_interned_codes :
    (((ContiguousInternedEntries.init "label" 0).get "a").map
        (fun r => r.2.entries) = .ok [("label.a", 1)])
    ∧ (((ContiguousInternedEntries.init "const" 1000).get "x").map
        (fun r => r.2.entries) = .ok [("const.x", 1001)])
    ∧ (∀ p o xs, ∃ s', runGets (ContiguousInternedEntries.init p o) xs = .ok s'
        ∧ s'.latest_index = o + s'.entries.length
        ∧ s'.entries.map Prod.snd = List.range' (o + 1) s'.entries.length)
    ∧ (∀ s e n1 s1, internKeysInv s →
        ContiguousInternedEntries.get s e = .ok (n1, s1) →
        ∃ s2, ContiguousInternedEntries.get s1 e = .ok (n1, s2)
          ∧ s2.entries = s1.entries) := by
  refine ⟨rfl, rfl, ?_, ?_⟩
  · intro p o xs
    have hinv : internKeysInv (ContiguousInternedEntries.init p o) := by
      intro kv hm
      cases hm
    have hc : internContig (ContiguousInternedEntries.init p o) := ⟨rfl, rfl⟩
    obtain ⟨s', hrun, _, ⟨hlat, hrange⟩, hoff⟩ := runGets_spec xs _ hinv hc
    exact ⟨s', hrun, by rw [hlat, hoff]; rfl, by rw [hrange, hoff]; rfl⟩
  · intro s e n1 s1 hinv hget
    obtain ⟨s1', hget', hinv1, hpfx1, _, hex, hnew⟩ := get_ok hinv e
    rw [hget] at hget'
    have h2 := Except.ok.inj hget'
    have hn : n1 = escapeStr (s.pfx ++ "." ++ e) := congrArg Prod.fst h2
    have hs : s1 = s1' := congrArg Prod.snd h2
    obtain ⟨s2, hget2, _, _, _, hex2, _⟩ := get_ok hinv1 e
    rw [hpfx1] at hget2 hex2
    have hmem1 : ∃ c, (escapeStr (s.pfx ++ "." ++ e), c) ∈ s1'.entries := by
      by_cases hmem : ∃ c, (escapeStr (s.pfx ++ "." ++ e), c) ∈ s.entries
      · obtain ⟨he, _⟩ := hex hmem
        rw [he]
        exact hmem
      · push_neg at hmem
        obtain ⟨he, _⟩ := hnew hmem
        rw [he]
        exact ⟨s.latest_index + 1, List.mem_append.mpr (Or.inr (by simp))⟩
    obtain ⟨he2, _⟩ := hex2 hmem1
    refine ⟨s2, ?_, ?_⟩
    · rw [hs, hn]
      exact hget2
    · rw [hs]
      exact he2

/-- C8 witness: the amended theorem applied to a concrete interner state,
every hypothesis discharged by evaluation. -/
theorem C8_witness :
    internKeysInv (ContiguousInternedEntries.init "label" 5)
    ∧ (ContiguousInternedEntries.init "label" 5).get "x" =
        .ok ("label.x", ⟨"label", 5, 6, [("label.x", 6)], ["label.x"]⟩)
    ∧ ∃ s2, ContiguousInternedEntries.get
          ⟨"label", 5, 6, [("label.x", 6)], ["label.x"]⟩ "x" = .ok ("label.x", s2)
        ∧ s2.entries = [("label.x", 6)] :=
  ⟨fun kv hm => absurd hm (List.not_mem_nil kv), rfl,
   C8_interned_codes.2.2.2 (ContiguousInternedEntries.init "label" 5) "x" "label.x"
     ⟨"label", 5, 6, [("label.x", 6)], ["label.x"]⟩
     (fun kv hm => absurd hm (List.not_mem_nil kv)) rfl⟩

/-! ### Number and Integer translation: proof machinery -/

theorem typeIs_unique {o : JObj} {t t' : String} (h : typeIs o t = true)
    (hne : t ≠ t') : typeIs o t' = false := by
  unfold typeIs at h ⊢
  cases hg : getJ o "type" with
  | none => rfl
  | some v =>
    rw [hg] at h
    cases v with
    | str s2 =>
      have hs : s2 = t := by simpa using h
      subst hs
      exact beq_eq_false_iff_ne.mpr hne
    | num n => rfl
    | jbool b => rfl
    | null => rfl
    | arr xs => rfl
    | obj fs => rfl

theorem find_type_number {schema : JObj} (h : NumberType.is_one schema = true) :
    find_type schema = .ok (some .numberT) := by
  have ht : typeIs schema "number" = true := by
    have h2 := h
    unfold NumberType.is_one at h2
    rw [Bool.and_eq_true] at h2
    exact h2.1
  have hs : StringType.is_one schema = false := by
    unfold StringType.is_one
    rw [typeIs_unique ht (by decide)]
    rfl
  simp [find_type, hs, h]

theorem find_type_integer {schema : JObj} (h : IntegerType.is_one schema = true) :
    find_type schema = .ok (some .integerT) := by
  have ht : typeIs schema "integer" = true := by
    have h2 := h
    unfold IntegerType.is_one at h2
    rw [Bool.and_eq_true] at h2
    exact h2.1
  have hs : StringType.is_one schema = false := by
    unfold StringType.is_one
    rw [typeIs_unique ht (by decide)]
    rfl
  have hn : NumberType.is_one schema = false := by
    unfold NumberType.is_one
    rw [typeIs_unique ht (by decide)]
    rfl
  simp [find_type, hs, hn, h]

/-- C3, counterexample: the schema node with type integer and no bounds is
accepted by the classifier as an integer shape, but its translation raises
(the code asserts that a minimum is present) instead of emitting a signed
type as the claim states for an absent lower bound. -/
theorem C3_counterexample :
    find_type [("type", JVal.str "integer")] = .ok (some .integerT)
    ∧ IntegerType.cddl [("type", JVal.str "integer")] = .error () :=
  ⟨rfl, rfl⟩

/-- C3 (amended): for number and integer schema nodes accepted by the
classifier, the emitted production is as the code defines it: for integers,
an absent minimum or a present maximum is a hard error, a zero minimum
gives uint, a positive minimum gives a bounded uint, and a negative minimum
gives int; for numbers, a present maximum is a hard error, an absent
minimum gives float, a nonnegative minimum (zero included) gives a bounded
float, and a negative minimum yields no production at all (the Python
function returns None). -/
theorem C3_number_integer_productions :
    (∀ schema, NumberType.is_one schema = true → find_type schema = .ok (some .numberT))
    ∧ (∀ schema, IntegerType.is_one schema = true →
        find_type schema = .ok (some .integerT))
    ∧ (∀ schema, hasKey schema "maximum" = true → NumberType.cddl schema = .error ())
    ∧ (∀ schema, hasKey schema "maximum" = false → getJ schema "minimum" = none →
        NumberType.cddl schema = .ok (some "float"))
    ∧ (∀ schema m, hasKey schema "maximum" = false →
        getJ schema "minimum" = some (.num m) → 0 ≤ m →
        NumberType.cddl schema = .ok (some ("float .ge " ++ toString m)))
    ∧ (∀ schema m, hasKey schema "maximum" = false →
        getJ schema "minimum" = some (.num m) → m < 0 →
        NumberType.cddl schema = .ok none)
    ∧ (∀ schema, getJ schema "minimum" = none → IntegerType.cddl schema = .error ())
    ∧ (∀ schema, hasKey schema "minimum" = true → hasKey schema "maximum" = true →
        IntegerType.cddl schema = .error ())
    ∧ (∀ schema, hasKey schema "maximum" = false →
        getJ schema "minimum" = some (.num 0) → IntegerType.cddl schema = .ok "uint")
    ∧ (∀ schema m, hasKey schema "maximum" = false →
        getJ schema "minimum" = some (.num m) → 0 < m →
        IntegerType.cddl schema = .ok ("uint .ge " ++ toString m))
    ∧ (∀ schema m, hasKey schema "maximum" = false →
        getJ schema "minimum" = some (.num m) → m < 0 →
        IntegerType.cddl schema = .ok "int") := by
  refine ⟨fun schema h => find_type_number h, fun schema h => find_type_integer h,
    ?_, ?_, ?_, ?_, ?_, ?_, ?_, ?_, ?_⟩
  · intro schema hmax
    simp [NumberType.cddl, hmax]
  · intro schema hmax hmin
    simp [NumberType.cddl, hmax, hmin]
  · intro schema m hmax hmin hge
    simp only [NumberType.cddl, hmax, Bool.false_eq_true, if_false, hmin]
    rw [if_pos hge]
  · intro schema m hmax hmin hlt
    simp only [NumberType.cddl, hmax, Bool.false_eq_true, if_false, hmin]
    rw [if_neg (by omega)]
  · intro schema hmin
    have hk : hasKey schema "minimum" = false := by
      unfold hasKey
      rw [hmin]
      rfl
    simp [IntegerType.cddl, hk]
  · intro schema hmin hmax
    simp [IntegerType.cddl, hmin, hmax]
  · intro schema hmax hmin
    have hk : hasKey schema "minimum" = true := by
      unfold hasKey
      rw [hmin]
      rfl
    simp [IntegerType.cddl, hk, hmax, hmin]
  · intro schema m hmax hmin hpos
    have hk : hasKey schema "minimum" = true := by
      unfold hasKey
      rw [hmin]
      rfl
    simp only [IntegerType.cddl, hk, Bool.not_true, Bool.false_eq_true, if_false,
      hmax, hmin]
    rw [if_pos (by omega)]
    rw [if_neg (by omega)]
  · intro schema m hmax hmin hneg
    have hk : hasKey schema "minimum" = true := by
      unfold hasKey
      rw [hmin]
      rfl
    simp only [IntegerType.cddl, hk, Bool.not_true, Bool.false_eq_true, if_false,
      hmax, hmin]
    rw [if_neg (by omega)]

/-- C3 witness: the amended theorem applied to the concrete node with type
integer and minimum zero, hypotheses discharged by evaluation. -/
theorem C3_witness :
    hasKey [("type", JVal.str "integer"), ("minimum", JVal.num 0)] "maximum" = false
    ∧ getJ [("type", JVal.str "integer"), ("minimum", JVal.num 0)] "minimum" =
        some (.num 0)
    ∧ IntegerType.cddl [("type", JVal.str "integer"), ("minimum", JVal.num 0)] =
        .ok "uint" :=
  ⟨rfl, rfl,
   C3_number_integer_productions.2.2.2.2.2.2.2.2.1
     [("type", JVal.str "integer"), ("minimum", JVal.num 0)] rfl rfl⟩

/-- C5, counterexample: the well-formed node mapping the single key not to
the scalar 5 makes find_type raise (Python calls .keys() on the integer 5
inside ConstType.is_one), so the classifier is not total on well-formed
nodes: it can throw. -/
theorem C5_counterexample : find_type [("not", JVal.num 5)] = .error () := rfl

/-- C5 (amended): on every node whose not key, when the key set is exactly
the single key not, holds a mapping, find_type returns exactly one result —
one shape variant or none — and never raises; a node with key set not and a
non-mapping value raises (see the counterexample). -/
theorem C5_classifier_total :
    ∀ schema : JObj,
      (keySetEq schema ["not"] = true → ∃ fs, getJ schema "not" = some (.obj fs)) →
      ∃! r, find_type schema = .ok r := by
  intro schema hnot
  have hNC : ∃ b, NotConstType.is_one schema = .ok b := by
    unfold NotConstType.is_one
    by_cases hks : keySetEq schema ["not"] = true
    · obtain ⟨fs, hfs⟩ := hnot hks
      rw [if_pos hks, hfs]
      exact ⟨_, rfl⟩
    · rw [if_neg hks]
      exact ⟨false, rfl⟩
  obtain ⟨b, hb⟩ := hNC
  have hex : ∃ r, find_type schema = .ok r := by
    unfold find_type
    by_cases h1 : StringType.is_one schema = true
    · rw [if_pos h1]; exact ⟨_, rfl⟩
    rw [if_neg h1]
    by_cases h2 : NumberType.is_one schema = true
    · rw [if_pos h2]; exact ⟨_, rfl⟩
    rw [if_neg h2]
    by_cases h3 : IntegerType.is_one schema = true
    · rw [if_pos h3]; exact ⟨_, rfl⟩
    rw [if_neg h3]
    by_cases h4 : AnyOfType.is_one schema = true
    · rw [if_pos h4]; exact ⟨_, rfl⟩
    rw [if_neg h4]
    by_cases h5 : EnumType.is_one schema = true
    · rw [if_pos h5]; exact ⟨_, rfl⟩
    rw [if_neg h5]
    by_cases h6 : BooleanType.is_one schema = true
    · rw [if_pos h6]; exact ⟨_, rfl⟩
    rw [if_neg h6]
    by_cases h7 : RefType.is_one schema = true
    · rw [if_pos h7]; exact ⟨_, rfl⟩
    rw [if_neg h7]
    by_cases h8 : ConstType.is_one schema = true
    · rw [if_pos h8]; exact ⟨_, rfl⟩
    rw [if_neg h8]
    by_cases h9 : ObjectType.is_one schema = true
    · rw [if_pos h9]; exact ⟨_, rfl⟩
    rw [if_neg h9]
    by_cases h10 : AllOfType.is_one schema = true
    · rw [if_pos h10]; exact ⟨_, rfl⟩
    rw [if_neg h10]
    by_cases h11 : ArrayType.is_one schema = true
    · rw [if_pos h11]; exact ⟨_, rfl⟩
    rw [if_neg h11]
    by_cases h12 : IfThenElseType.is_one schema = true
    · rw [if_pos h12]; exact ⟨_, rfl⟩
    rw [if_neg h12]
    rw [hb]
    cases b with
    | true => exact ⟨_, rfl⟩
    | false =>
      by_cases h13 : IfThenElseObjectType.is_one schema = true
      · rw [if_pos h13]; exact ⟨_, rfl⟩
      · rw [if_neg h13]; exact ⟨_, rfl⟩
  obtain ⟨r, hr⟩ := hex
  exact ⟨r, hr, fun y hy => by rw [hr] at hy; exact (Except.ok.inj hy).symm⟩

/-- C5 witness: the amended theorem applied to the concrete enum node, the
hypothesis discharged by evaluation. -/
theorem C5_witness :
    (keySetEq [("enum", JVal.arr [])] ["not"] = true →
      ∃ fs, getJ [("enum", JVal.arr [])] "not" = some (.obj fs))
    ∧ ∃! r, find_type [("enum", JVal.arr [])] = .ok r :=
  ⟨fun h => absurd h (by decide),
   C5_classifier_total [("enum", JVal.arr [])] (fun h => absurd h (by decide))⟩

/-! ### Transcoder value conversion: proof machinery -/

theorem key_not_hash {key : String}
    (hk : key = "created" ∨ pyEndsWith key "Time" = true) :
    (key == "hashValue") = false := by
  rcases hk with hk | hk
  · subst hk
    decide
  · by_cases he : key = "hashValue"
    · subst he
      exact absurd hk (by decide)
    · exact beq_eq_false_iff_ne.mpr he

theorem key_time_cond {key : String}
    (hk : key = "created" ∨ pyEndsWith key "Time" = true) :
    (key == "created" || pyEndsWith key "Time") = true := by
  rcases hk with hk | hk
  · subst hk
    simp
  · rw [hk]
    simp

theorem svc_hash_ok (off : Int) (sch : SchemaState) (s : String) (bs : List Nat)
    (h : fromhex s = some bs) :
    simple_value_convert off sch "hashValue" (.str s) = .ok (.bytes bs) := by
  unfold simple_value_convert
  rw [if_pos (show (("hashValue" : String) == "hashValue") = true from by decide)]
  dsimp only
  rw [h]

theorem svc_hash_err (off : Int) (sch : SchemaState) (s : String)
    (h : fromhex s = none) :
    simple_value_convert off sch "hashValue" (.str s) =
      .error "ValueError: non-hexadecimal number found in fromhex" := by
  unfold simple_value_convert
  rw [if_pos (show (("hashValue" : String) == "hashValue") = true from by decide)]
  dsimp only
  rw [h]

theorem svc_time_ok (off : Int) (sch : SchemaState) (key s : String)
    (dt : PyDateTime) (hk : key = "created" ∨ pyEndsWith key "Time" = true)
    (hparse : fromisoformat (pyReplace s "Z" "+00:00") = some dt) :
    simple_value_convert off sch key (.str s) = .ok (.tag1 (pyIntTimestamp dt off)) := by
  unfold simple_value_convert
  rw [key_not_hash hk]
  simp only [Bool.false_eq_true, if_false, key_time_cond hk, if_true]
  rw [hparse]

theorem svc_time_err (off : Int) (sch : SchemaState) (key s : String)
    (hk : key = "created" ∨ pyEndsWith key "Time" = true)
    (hparse : fromisoformat (pyReplace s "Z" "+00:00") = none) :
    simple_value_convert off sch key (.str s) =
      .error "ValueError: invalid isoformat string" := by
  unfold simple_value_convert
  rw [key_not_hash hk]
  simp only [Bool.false_eq_true, if_false, key_time_cond hk, if_true]
  rw [hparse]

/-- C6: a field named hashValue has its string value parsed as hex and
stored as raw bytes (deadbeef becomes the bytes DE AD BE EF), with a fatal
error on malformed hex; a field named created or ending in Time has its
string value parsed as ISO-8601 after replacing Z by the zero UTC offset
and is stored as a tag-1 integer of epoch seconds (2024-01-01T00:00:00Z
becomes the tagged integer 1704067200), with a fatal error on unparseable
input. -/
theorem C6_digest_timestamp_convert :
    (∀ off sch s bs, fromhex s = some bs →
      simple_value_convert off sch "hashValue" (.str s) = .ok (.bytes bs))
    ∧ (∀ off sch s, fromhex s = none →
      simple_value_convert off sch "hashValue" (.str s) =
        .error "ValueError: non-hexadecimal number found in fromhex")
    ∧ (simple_value_convert 0 emptySchemaState "hashValue" (.str "deadbeef") =
        .ok (.bytes [222, 173, 190, 239]))
    ∧ (∀ off sch key s dt, (key = "created" ∨ pyEndsWith key "Time" = true) →
        fromisoformat (pyReplace s "Z" "+00:00") = some dt →
        simple_value_convert off sch key (.str s) =
          .ok (.tag1 (pyIntTimestamp dt off)))
    ∧ (∀ off sch key s, (key = "created" ∨ pyEndsWith key "Time" = true) →
        fromisoformat (pyReplace s "Z" "+00:00") = none →
        simple_value_convert off sch key (.str s) =
          .error "ValueError: invalid isoformat string")
    ∧ (simple_value_convert 0 emptySchemaState "created"
        (.str "2024-01-01T00:00:00Z") = .ok (.tag1 1704067200)) :=
  ⟨svc_hash_ok, svc_hash_err, rfl, svc_time_ok, svc_time_err, rfl⟩

/-- C6 witness: the conjuncts with hypotheses applied at concrete inputs,
hypotheses discharged by evaluation. -/
theorem C6_witness :
    (fromhex "0aff" = some [10, 255]
      ∧ simple_value_convert 0 emptySchemaState "hashValue" (.str "0aff") =
          .ok (.bytes [10, 255]))
    ∧ (fromhex "zz" = none
      ∧ simple_value_convert 0 emptySchemaState "hashValue" (.str "zz") =
          .error "ValueError: non-hexadecimal number found in fromhex")
    ∧ (fromisoformat (pyReplace "not a date" "Z" "+00:00") = none
      ∧ simple_value_convert 0 emptySchemaState "startTime" (.str "not a date") =
          .error "ValueError: invalid isoformat string") :=
  ⟨⟨rfl, C6_digest_timestamp_convert.1 0 emptySchemaState "0aff" [10, 255] rfl⟩,
   ⟨rfl, C6_digest_timestamp_convert.2.1 0 emptySchemaState "zz" rfl⟩,
   ⟨rfl, C6_digest_timestamp_convert.2.2.2.2.1 0 emptySchemaState "startTime"
      "not a date" (Or.inr (by decide)) rfl⟩⟩

/-- C10: a timestamp-field value parsed with a nonzero fractional-second
part is accepted, the fraction silently discarded, and the tag-1 integer of
whole epoch seconds stored: on 2024-01-01T00:00:00.999999Z the transcoder
stores the tagged integer 1704067200 rather than rejecting the value or
keeping sub-second precision. -/
theorem C10_fraction_truncated :
    (∀ off sch key s dt tzm, (key = "created" ∨ pyEndsWith key "Time" = true) →
        fromisoformat (pyReplace s "Z" "+00:00") = some dt →
        dt.tzMinutes = some tzm → dt.fracNum ≠ 0 →
        0 ≤ wholeEpochSeconds dt tzm →
        simple_value_convert off sch key (.str s) =
          .ok (.tag1 (wholeEpochSeconds dt tzm)))
    ∧ (simple_value_convert 0 emptySchemaState "created"
        (.str "2024-01-01T00:00:00.999999Z") = .ok (.tag1 1704067200)) := by
  constructor
  · intro off sch key s dt tzm hk hparse htz hfrac hge
    rw [svc_time_ok off sch key s dt hk hparse]
    have hts : pyIntTimestamp dt off = wholeEpochSeconds dt tzm := by
      unfold pyIntTimestamp
      rw [htz]
      simp only [Option.getD_some]
      rw [if_neg]
      rintro ⟨hlt, _⟩
      omega
    rw [hts]
  · rfl

/-- C10 witness: the theorem applied to the concrete fractional timestamp,
hypotheses discharged by evaluation. -/
theorem C10_witness :
    fromisoformat (pyReplace "2024-01-01T00:00:00.5Z" "Z" "+00:00") =
        some ⟨2024, 1, 1, 0, 0, 0, 5, 1, some 0⟩
    ∧ (0 : Int) ≤ wholeEpochSeconds ⟨2024, 1, 1, 0, 0, 0, 5, 1, some 0⟩ 0
    ∧ simple_value_convert 0 emptySchemaState "created"
        (.str "2024-01-01T00:00:00.5Z") =
        .ok (.tag1 (wholeEpochSeconds ⟨2024, 1, 1, 0, 0, 0, 5, 1, some 0⟩ 0)) :=
  ⟨rfl, by decide,
   C10_fraction_truncated.1 0 emptySchemaState "created" "2024-01-01T00:00:00.5Z"
     ⟨2024, 1, 1, 0, 0, 0, 5, 1, some 0⟩ 0 (Or.inl rfl) rfl rfl (by decide) (by decide)⟩

/-- C7, counterexample: with the loaded table declaring const.person = 1001,
the document string person is replaced by the string 1001 taken verbatim
from the table (the loader never parses const values to integers), not by
an interned integer code. -/
theorem C7_counterexample :
    ((schemaInit emptySchemaState ["const.person = 1001"]).map
        (fun sch => simple_value_convert 0 sch "name" (.str "person")) =
      .ok (.ok (.str "1001")))
    ∧ ∀ n : Int, (Except.ok (DVal.str "1001") : Except String DVal) ≠ .ok (.int n) :=
  ⟨rfl, fun _ h => DVal.noConfusion (Except.ok.inj h)⟩

/-- C7 (amended): for a string value under a field that is not a digest or
timestamp field, a value equal to an interned constant is replaced by the
declared constant table entry, substituted verbatim as a string (const
table values are uninterpreted text, not integer codes), and otherwise a
value equal to an interned enumerated value is replaced by its interned
integer code. -/
theorem C7_substitution :
    ∀ off sch key s,
      (key == "hashValue") = false → (key == "created") = false →
      pyEndsWith key "Time" = false →
      (∀ c, alistGet sch.consts s = some c →
        simple_value_convert off sch key (.str s) = .ok (.str c))
      ∧ (alistGet sch.consts s = none → ∀ e, alistGet sch.enums s = some e →
        simple_value_convert off sch key (.str s) = .ok (.int e)) := by
  intro off sch key s h1 h2 h3
  constructor
  · intro c hc
    unfold simple_value_convert
    rw [h1]
    simp only [Bool.false_eq_true, if_false, h2, h3, Bool.or_self]
    rw [hc]
  · intro hc e he
    unfold simple_value_convert
    rw [h1]
    simp only [Bool.false_eq_true, if_false, h2, h3, Bool.or_self]
    rw [hc, he]

/-- C7 witness: the amended theorem applied to a concrete table and key,
hypotheses discharged by evaluation. -/
theorem C7_witness :
    ("name" == "hashValue") = false
    ∧ ("name" == "created") = false
    ∧ pyEndsWith "name" "Time" = false
    ∧ simple_value_convert 0 ⟨[], [("red", 5)], [("person", "1001")]⟩ "name"
        (.str "person") = .ok (.str "1001")
    ∧ simple_value_convert 0 ⟨[], [("red", 5)], [("person", "1001")]⟩ "name"
        (.str "red") = .ok (.int 5) :=
  ⟨by decide, by decide, by decide,
   (C7_substitution 0 ⟨[], [("red", 5)], [("person", "1001")]⟩ "name" "person"
     (by decide) (by decide) (by decide)).1 "1001" rfl,
   (C7_substitution 0 ⟨[], [("red", 5)], [("person", "1001")]⟩ "name" "red"
     (by decide) (by decide) (by decide)).2 rfl 5 rfl⟩

/-! ### Profile grouper: proof machinery -/

theorem find?_map_fst_pres {α : Type} (f : (String × α) → (String × α))
    (hf : ∀ b, (f b).1 = b.1) (P : String) :
    ∀ bs : List (String × α),
      (bs.map f).find? (fun b => b.1 == P) = (bs.find? (fun b => b.1 == P)).map f := by
  intro bs
  induction bs with
  | nil => rfl
  | cons b rest ih =>
    simp only [List.map_cons, List.find?_cons]
    rw [hf b]
    cases hb : (b.1 == P) with
    | true => rfl
    | false => exact ih

theorem bucketOf_append_ne {bs : Buckets} {p P : String} (hne : P ≠ p)
    (d : String × JVal) : bucketOf (bucketAppend bs p d) P = bucketOf bs P := by
  unfold bucketOf bucketAppend
  rw [find?_map_fst_pres _ (fun b => by split <;> rfl) P bs]
  cases hf : bs.find? (fun b => b.1 == P) with
  | none => rfl
  | some b =>
    have hb : b.1 = P := by simpa using List.find?_some hf
    simp only [Option.map_some']
    have hbp : (b.1 == p) = false := by
      rw [hb]
      exact beq_eq_false_iff_ne.mpr hne
    rw [hbp]
    rfl

theorem bucketOf_append_self {bs : Buckets} {p : String}
    (h : HasBucket bs p = true) (d : String × JVal) :
    bucketOf (bucketAppend bs p d) p = bucketOf bs p ++ [d] := by
  unfold bucketOf bucketAppend
  rw [find?_map_fst_pres _ (fun b => by split <;> rfl) p bs]
  cases hf : bs.find? (fun b => b.1 == p) with
  | none =>
    unfold HasBucket at h
    rw [hf] at h
    cases h
  | some b =>
    have hb : (b.1 == p) = true := by simpa using List.find?_some hf
    simp only [Option.map_some']
    rw [hb]
    rfl

theorem HasBucket_append (bs : Buckets) (p k : String) (d : String × JVal) :
    HasBucket (bucketAppend bs p d) k = HasBucket bs k := by
  unfold HasBucket bucketAppend
  rw [find?_map_fst_pres _ (fun b => by split <;> rfl) k bs]
  cases bs.find? (fun b => b.1 == k) <;> rfl

theorem mem_bucketOf_append {bs : Buckets} {p P : String}
    (h : HasBucket bs p = true) (d x : String × JVal) :
    x ∈ bucketOf (bucketAppend bs p d) P ↔
      x ∈ bucketOf bs P ∨ (P = p ∧ x = d) := by
  by_cases hp : P = p
  · subst hp
    rw [bucketOf_append_self h d]
    simp [List.mem_append]
  · rw [bucketOf_append_ne hp d]
    simp [hp]

theorem inner_HasBucket (d : String × JVal) (kms : List (String × String)) :
    ∀ (bs : Buckets) (flag : Bool) (k : String),
      HasBucket ((kms.foldl
        (fun (acc : Buckets × Bool) km =>
          if pyStartsWith d.1 km.1 then (bucketAppend acc.1 km.2 d, false) else acc)
        (bs, flag)).1) k = HasBucket bs k := by
  induction kms with
  | nil => intro bs flag k; rfl
  | cons km rest ih =>
    intro bs flag k
    rw [List.foldl_cons]
    by_cases hs : pyStartsWith d.1 km.1 = true
    · rw [if_pos hs, ih, HasBucket_append]
    · rw [if_neg hs, ih]

theorem inner_flag (d : String × JVal) (kms : List (String × String)) :
    ∀ (bs : Buckets) (flag : Bool),
      ((kms.foldl
        (fun (acc : Buckets × Bool) km =>
          if pyStartsWith d.1 km.1 then (bucketAppend acc.1 km.2 d, false) else acc)
        (bs, flag)).2) = (flag && kms.all (fun km => !pyStartsWith d.1 km.1)) := by
  induction kms with
  | nil => intro bs flag; simp
  | cons km rest ih =>
    intro bs flag
    rw [List.foldl_cons]
    by_cases hs : pyStartsWith d.1 km.1 = true
    · rw [if_pos hs, ih]
      simp [hs]
    · rw [if_neg hs, ih]
      have hs' : pyStartsWith d.1 km.1 = false := by
        cases h : pyStartsWith d.1 km.1
        · rfl
        · exact absurd h hs
      simp [hs']

theorem inner_mem (d x : String × JVal) (P : String) (kms : List (String × String)) :
    ∀ (bs : Buckets) (flag : Bool),
      (∀ km ∈ kms, HasBucket bs km.2 = true) →
      (x ∈ bucketOf ((kms.foldl
          (fun (acc : Buckets × Bool) km =>
            if pyStartsWith d.1 km.1 then (bucketAppend acc.1 km.2 d, false) else acc)
          (bs, flag)).1) P ↔
        x ∈ bucketOf bs P ∨
          (x = d ∧ ∃ km ∈ kms, pyStartsWith d.1 km.1 = true ∧ km.2 = P)) := by
  induction kms with
  | nil => intro bs flag _; simp
  | cons km rest ih =>
    intro bs flag hks
    rw [List.foldl_cons]
    have hks1 : HasBucket bs km.2 = true := hks km (by simp)
    by_cases hs : pyStartsWith d.1 km.1 = true
    · rw [if_pos hs]
      have hks' : ∀ km2 ∈ rest, HasBucket (bucketAppend bs km.2 d) km2.2 = true := by
        intro km2 hm
        rw [HasBucket_append]
        exact hks km2 (by simp [hm])
      rw [ih (bucketAppend bs km.2 d) false hks']
      rw [mem_bucketOf_append hks1 d x]
      constructor
      · rintro ((hm | ⟨hp, hx⟩) | ⟨hx, km2, hm2, hs2, hp2⟩)
        · exact Or.inl hm
        · exact Or.inr ⟨hx, km, by simp, hs, hp.symm⟩
        · exact Or.inr ⟨hx, km2, by simp [hm2], hs2, hp2⟩
      · rintro (hm | ⟨hx, km2, hm2, hs2, hp2⟩)
        · exact Or.inl (Or.inl hm)
        · rcases List.mem_cons.mp hm2 with hm2 | hm2
          · subst hm2
            exact Or.inl (Or.inr ⟨hp2.symm, hx⟩)
          · exact Or.inr ⟨hx, km2, hm2, hs2, hp2⟩
    · rw [if_neg hs]
      rw [ih bs flag (fun km2 hm => hks km2 (by simp [hm]))]
      constructor
      · rintro (hm | ⟨hx, km2, hm2, hs2, hp2⟩)
        · exact Or.inl hm
        · exact Or.inr ⟨hx, km2, by simp [hm2], hs2, hp2⟩
      · rintro (hm | ⟨hx, km2, hm2, hs2, hp2⟩)
        · exact Or.inl hm
        · rcases List.mem_cons.mp hm2 with hm2 | hm2
          · subst hm2
            exact absurd hs2 hs
          · exact Or.inr ⟨hx, km2, hm2, hs2, hp2⟩

theorem assignDef_mem (bs : Buckets) (d x : String × JVal) (P : String)
    (hks : ∀ km ∈ profile_map, HasBucket bs km.2 = true)
    (hcore : HasBucket bs "Core" = true) :
    x ∈ bucketOf (assignDef bs d) P ↔
      x ∈ bucketOf bs P ∨ (x = d ∧ matchesProfile d.1 P) := by
  unfold assignDef
  dsimp only
  rw [inner_flag d profile_map bs true]
  by_cases hall : profile_map.all (fun km => !pyStartsWith d.1 km.1) = true
  · rw [hall]
    simp only [Bool.and_true, if_true, Bool.true_and, if_pos]
    have hcore' : HasBucket ((profile_map.foldl
        (fun (acc : Buckets × Bool) km =>
          if pyStartsWith d.1 km.1 then (bucketAppend acc.1 km.2 d, false) else acc)
        (bs, true)).1) "Core" = true := by
      rw [inner_HasBucket]
      exact hcore
    rw [mem_bucketOf_append hcore' d x]
    rw [inner_mem d x P profile_map bs true hks]
    have hnomatch : ∀ km ∈ profile_map, pyStartsWith d.1 km.1 = false := by
      intro km hm
      have := List.all_eq_true.mp hall km hm
      cases h : pyStartsWith d.1 km.1
      · rfl
      · rw [h] at this; cases this
    constructor
    · rintro ((hm | ⟨hx, km, hkm, hs, _⟩) | ⟨hp, hx⟩)
      · exact Or.inl hm
      · rw [hnomatch km hkm] at hs; cases hs
      · exact Or.inr ⟨hx, Or.inr ⟨hnomatch, hp⟩⟩
    · rintro (hm | ⟨hx, ⟨km, hkm, hs, hp⟩ | ⟨_, hp⟩⟩)
      · exact Or.inl (Or.inl hm)
      · rw [hnomatch km hkm] at hs; cases hs
      · exact Or.inr ⟨hp, hx⟩
  · have hall' : profile_map.all (fun km => !pyStartsWith d.1 km.1) = false := by
      cases h : profile_map.all (fun km => !pyStartsWith d.1 km.1)
      · rfl
      · exact absurd h hall
    rw [hall']
    simp only [Bool.and_false, Bool.false_eq_true, if_false]
    rw [inner_mem d x P profile_map bs true hks]
    have hmatch : ∃ km ∈ profile_map, pyStartsWith d.1 km.1 = true := by
      by_contra hno
      push_neg at hno
      apply hall
      rw [List.all_eq_true]
      intro km hm
      have h2 : pyStartsWith d.1 km.1 = false := by
        cases h : pyStartsWith d.1 km.1
        · rfl
        · exact absurd h (hno km hm)
      rw [h2]
      rfl
    constructor
    · rintro (hm | ⟨hx, km, hkm, hs, hp⟩)
      · exact Or.inl hm
      · exact Or.inr ⟨hx, Or.inl ⟨km, hkm, hs, hp⟩⟩
    · rintro (hm | ⟨hx, ⟨km, hkm, hs, hp⟩ | ⟨hno, _⟩⟩)
      · exact Or.inl hm
      · exact Or.inr ⟨hx, km, hkm, hs, hp⟩
      · obtain ⟨km, hkm, hs⟩ := hmatch
        rw [hno km hkm] at hs
        cases hs

theorem assignDef_HasBucket (bs : Buckets) (d : String × JVal) (k : String) :
    HasBucket (assignDef bs d) k = HasBucket bs k := by
  unfold assignDef
  dsimp only
  split
  · rw [HasBucket_append, inner_HasBucket]
  · rw [inner_HasBucket]

theorem grouping_fold_mem (defs : List (String × JVal)) :
    ∀ (bs : Buckets) (x : String × JVal) (P : String),
      (∀ km ∈ profile_map, HasBucket bs km.2 = true) →
      HasBucket bs "Core" = true →
      (x ∈ bucketOf (defs.foldl assignDef bs) P ↔
        x ∈ bucketOf bs P ∨ (x ∈ defs ∧ matchesProfile x.1 P)) := by
  induction defs with
  | nil => intro bs x P _ _; simp
  | cons d rest ih =>
    intro bs x P hks hcore
    rw [List.foldl_cons]
    have hks' : ∀ km ∈ profile_map, HasBucket (assignDef bs d) km.2 = true := by
      intro km hm
      rw [assignDef_HasBucket]
      exact hks km hm
    have hcore' : HasBucket (assignDef bs d) "Core" = true := by
      rw [assignDef_HasBucket]
      exact hcore
    rw [ih (assignDef bs d) x P hks' hcore']
    rw [assignDef_mem bs d x P hks hcore]
    constructor
    · rintro ((hm | ⟨hx, hmp⟩) | ⟨hm, hmp⟩)
      · exact Or.inl hm
      · exact Or.inr ⟨by simp [hx], by rw [hx]; exact hmp⟩
      · exact Or.inr ⟨by simp [hm], hmp⟩
    · rintro (hm | ⟨hm, hmp⟩)
      · exact Or.inl (Or.inl hm)
      · rcases List.mem_cons.mp hm with hm | hm
        · exact Or.inl (Or.inr ⟨hm, by rw [hm] at hmp; exact hmp⟩)
        · exact Or.inr ⟨hm, hmp⟩

theorem bucketOf_all_nil {bs : Buckets} (h : ∀ b ∈ bs, b.2.isEmpty = true)
    (P : String) : bucketOf bs P = [] := by
  unfold bucketOf
  cases hf : bs.find? (fun b => b.1 == P) with
  | none => rfl
  | some b =>
    have hb := h b (List.mem_of_find?_eq_some hf)
    simp only [Option.map_some']
    exact List.isEmpty_iff.mp hb

/-- C9, counterexample: the name SOFTWARE_x has the profile name Software
as a case-insensitive prefix, so the claimed case-insensitive rule would
put it in the Software bucket; the code compares the name as-is against the
lowercased key software, so the definition lands in Core instead. -/
theorem C9_counterexample :
    bucketOf (Grouping_profiles [("SOFTWARE_x", JVal.null)]) "Software" = []
    ∧ bucketOf (Grouping_profiles [("SOFTWARE_x", JVal.null)]) "Core" =
        [("SOFTWARE_x", JVal.null)] :=
  ⟨rfl, rfl⟩

/-- C9 (amended): a definition is assigned to the bucket of profile P
exactly when some profile_map key — a lowercased profile name or its
prop_-prefixed form — is a literal, case-sensitive prefix of the definition
name and maps to P, and to the default Core bucket exactly when no key is a
prefix.  Matching is not case-insensitive on the definition-name side (see
the counterexample). -/
theorem C9_grouping :
    ∀ (defs : List (String × JVal)) (x : String × JVal) (P : String),
      x ∈ bucketOf (Grouping_profiles defs) P ↔
        x ∈ defs ∧ matchesProfile x.1 P := by
  intro defs x P
  unfold Grouping_profiles
  rw [grouping_fold_mem defs initBuckets x P (by decide) (by decide)]
  have hinit : bucketOf initBuckets P = [] :=
    bucketOf_all_nil (by decide) P
  rw [hinit]
  simp
